import Mathlib

/-!
Shallow embedding of the dlm repository (src/utils.py, src/network_helper.py,
src/evaluate.py) and proofs of the specification claims.

Conventions of the embedding:
* Python lists of ints are Lean `List Nat`; floating-point values are `ℚ`
  (the claims under study are exact identities, not rounding statements).
* Tensor shapes are tuples of `Nat`; the forward pass of `my_model_fn` is
  embedded at the shape level, which is what the shape claims are about.
* A Python runtime error (failed assert, IndexError, NameError) is `none`
  in an `Option` result; `np.mean` of an empty array (NaN) is `none`.
-/

namespace DLM

/-! ## Stride computation of the upsampling loop (src/utils.py, my_model_fn)

The stage loop of `my_model_fn` runs, per stage `(up_size, up_filter)` of
`zip(tconv_dims, tconv_filters)`:
    assert up_size % feature_dim == 0
    stride = up_size // feature_dim
    feature_dim = up_size
with `feature_dim` initialised to `fc_filters[-1]`. -/

/-- Divisibility chain of the stage loop: each target width is divisible by
the incoming feature dimension (`f0` for stage 0, the previous target width
thereafter). This is exactly the conjunction of the loop's asserts. -/
def chainDivB : Nat → List Nat → Bool
  | _, [] => true
  | f0, d :: ds => (d % f0 == 0) && chainDivB d ds

/-- The strides computed by the stage loop of `my_model_fn`:
stride for stage `i` is `tconv_dims[i] // feature_dim_i`, with a failed
assert (non-divisible width) returning `none`. -/
def computeStrides : Nat → List Nat → Option (List Nat)
  | _, [] => some []
  | f0, d :: ds =>
    if d % f0 == 0 then (computeStrides d ds).map (fun ss => d / f0 :: ss)
    else none

/-! ## Shape semantics of my_model_fn (src/utils.py) -/

/-- Shape evolution of the transposed-convolution stage loop in
`my_model_fn`. State: current 3-D shape `(batch, width, channels)` of `up`,
the incoming `feature_dim` and `last_filter`. Each stage asserts
divisibility, then `conv1d_transpose` produces the requested output shape
`[batch_size, up_size, up_filter]`. -/
def stageLoop (batchSize : Nat) :
    Nat × Nat × Nat → Nat → Nat → List (Nat × Nat) → Option (Nat × Nat × Nat)
  | shape, _, _, [] => some shape
  | _, featureDim, _, (upSize, upFilter) :: rest =>
    if upSize % featureDim == 0 then
      stageLoop batchSize (batchSize, upSize, upFilter) upSize upFilter rest
    else none

/-- Shape semantics of `my_model_fn(features, batch_size, fc_filters,
tconv_dims, tconv_filters)`: dense layers set the width to each filter
count in turn; `expand_dims(fc, axis=2)` adds a unit channel axis;
`feature_dim = fc_filters[-1]` (IndexError, hence `none`, on an empty
list); the stage loop upsamples; the final 1-wide `conv1d` collapses
channels to 1 and `squeeze(axis=2)` drops the channel axis. -/
def my_model_fn_shape (featuresShape : Nat × Nat) (batchSize : Nat)
    (fc_filters tconv_dims tconv_filters : List Nat) : Option (Nat × Nat) :=
  let fcShape := fc_filters.foldl (fun s f => (s.1, f)) featuresShape
  match fc_filters.getLast? with
  | none => none
  | some f0 =>
    match stageLoop batchSize (fcShape.1, fcShape.2, 1) f0 1
        (tconv_dims.zip tconv_filters) with
    | none => none
    | some (ob, ow, _) => some (ob, ow)

/-! ## Hook state machines (src/network_helper.py)

`Hook.__init__` sets `self.step = -1`; each `run` starts with
`self.step += 1`. -/

/-- Mutable state shared by all hooks: the step counter. -/
structure HookState where
  step : Int
deriving DecidableEq, Repr

/-- Initial hook state, from `Hook.__init__`: `self.step = -1`. -/
def HookState.init : HookState := ⟨-1⟩

/-- One `TrainValueHook.run` invocation: increment the step, and report
whether the guarded action (`step % verb_step == 0`) executed. -/
def trainRun (verb_step : Int) (s : HookState) : HookState × Bool :=
  let s' : HookState := ⟨s.step + 1⟩
  (s', s'.step % verb_step == 0)

/-- One `ValidationHook.run` invocation: increment the step, and report
whether the guarded action (`step % valid_step == 0 and step != 0`)
executed. -/
def validRun (valid_step : Int) (s : HookState) : HookState × Bool :=
  let s' : HookState := ⟨s.step + 1⟩
  (s', (s'.step % valid_step == 0) && !(s'.step == 0))

/-- Hook state after `n` successive `TrainValueHook.run` invocations from
the initial state. -/
def trainIter (verb_step : Int) : Nat → HookState
  | 0 => HookState.init
  | n + 1 => (trainRun verb_step (trainIter verb_step n)).1

/-- Hook state after `n` successive `ValidationHook.run` invocations from
the initial state. -/
def validIter (valid_step : Int) : Nat → HookState
  | 0 => HookState.init
  | n + 1 => (validRun valid_step (validIter valid_step n)).1

/-- Whether the action of `TrainValueHook.run` executes on tick `n`
(the `n`-th invocation, counting from 0). -/
def trainFiredOnTick (verb_step : Int) (n : Nat) : Bool :=
  (trainRun verb_step (trainIter verb_step n)).2

/-- Whether the action of `ValidationHook.run` executes on tick `n`
(the `n`-th invocation, counting from 0). -/
def validFiredOnTick (valid_step : Int) (n : Nat) : Bool :=
  (validRun valid_step (validIter valid_step n)).2

/-! ## Force-run branch of the evaluation driver (src/evaluate.py, main) -/

/-- Module-level constant `FORCE_RUN = True` in src/evaluate.py. -/
def FORCE_RUN : Bool := true

/-- The branch condition in `main`:
`if FORCE_RUN or (not os.path.exists(save_file))`. The parsed flag
`flags.force_run` is in scope but unused by this condition. -/
def evalBranchTaken (_force_run_flag : Bool) (saveFileExists : Bool) : Bool :=
  FORCE_RUN || !saveFileExists

/-! ## Helper lemmas -/

theorem trainIter_step (verb_step : Int) :
    ∀ n : Nat, (trainIter verb_step n).step = (n : Int) - 1 := by
  intro n
  induction n with
  | zero => rfl
  | succ k ih =>
    simp only [trainIter, trainRun, ih]
    push_cast
    ring

theorem validIter_step (valid_step : Int) :
    ∀ n : Nat, (validIter valid_step n).step = (n : Int) - 1 := by
  intro n
  induction n with
  | zero => rfl
  | succ k ih =>
    simp only [validIter, validRun, ih]
    push_cast
    ring

theorem getLast?_cons_ne_nil {α : Type} (a : α) {l : List α} (h : l ≠ []) :
    (a :: l).getLast? = l.getLast? := by
  cases l with
  | nil => exact absurd rfl h
  | cons b bs => exact List.getLast?_cons_cons

theorem stageLoop_spec (batchSize : Nat) :
    ∀ (stages : List (Nat × Nat)) (shape : Nat × Nat × Nat)
      (f0 lf : Nat), chainDivB f0 (stages.map Prod.fst) = true →
      stageLoop batchSize shape f0 lf stages =
        some (match stages.getLast? with
              | none => shape
              | some (u, f) => (batchSize, u, f)) := by
  intro stages
  induction stages with
  | nil => intro shape f0 lf _; rfl
  | cons s rest ih =>
    intro shape f0 lf hdiv
    obtain ⟨u, f⟩ := s
    simp only [List.map, chainDivB, Bool.and_eq_true] at hdiv
    obtain ⟨hu, hrest⟩ := hdiv
    simp only [stageLoop, hu, if_true]
    rw [ih (batchSize, u, f) u f hrest]
    cases hrest' : rest.getLast? with
    | none =>
      have : rest = [] := List.getLast?_eq_none_iff.mp hrest'
      subst this
      rfl
    | some p =>
      have hne : rest ≠ [] := by
        intro h; subst h; simp at hrest'
      rw [getLast?_cons_ne_nil (u, f) hne]
      simp [hrest']

theorem zip_getLast?_eq {α β : Type} :
    ∀ (xs : List α) (ys : List β), xs.length = ys.length →
      (xs.zip ys).getLast? = match xs.getLast?, ys.getLast? with
        | some x, some y => some (x, y)
        | _, _ => none := by
  intro xs
  induction xs with
  | nil => intro ys h; cases ys with
    | nil => rfl
    | cons y ys => simp at h
  | cons x xs ih =>
    intro ys h
    cases ys with
    | nil => simp at h
    | cons y ys =>
      simp only [List.length_cons, Nat.succ.injEq] at h
      cases hxs : xs with
      | nil =>
        cases ys with
        | nil => rfl
        | cons z zs => rw [hxs] at h; simp at h
      | cons a as =>
        have hne : xs ≠ [] := by rw [hxs]; simp
        have hyne : ys ≠ [] := by
          intro hy
          rw [hxs, hy] at h; simp at h
        have hzne : xs.zip ys ≠ [] := by
          rw [hxs]
          cases ys with
          | nil => exact absurd rfl hyne
          | cons b bs => simp [List.zip]
        rw [← hxs]
        rw [List.zip_cons_cons, getLast?_cons_ne_nil (x, y) hzne,
            getLast?_cons_ne_nil x hne, getLast?_cons_ne_nil y hyne]
        exact ih ys h

/-! ## Claim theorems -/

/-- C1: for every architecture spec whose stage widths satisfy the
divisibility chain, the strides computed by the stage loop of `my_model_fn`
satisfy `feature_dim_i * stride_i = tconv_dims[i]` exactly: zipping the
feature-dimension sequence `f0 :: tconv_dims` against the strides with
multiplication reproduces `tconv_dims`. -/
theorem strides_exact (f0 : Nat) (tconv_dims : List Nat)
    (hdiv : chainDivB f0 tconv_dims = true) :
    ∃ ss, computeStrides f0 tconv_dims = some ss ∧
      List.zipWith (· * ·) (f0 :: tconv_dims) ss = tconv_dims := by
  induction tconv_dims generalizing f0 with
  | nil => exact ⟨[], rfl, rfl⟩
  | cons d ds ih =>
    simp only [chainDivB, Bool.and_eq_true] at hdiv
    obtain ⟨hd, hds⟩ := hdiv
    obtain ⟨ss, hss, hmul⟩ := ih d hds
    refine ⟨d / f0 :: ss, ?_, ?_⟩
    · simp [computeStrides, hd, hss]
    · simp only [List.zipWith]
      have hdvd : f0 ∣ d := by
        have hz : d % f0 = 0 := by simpa using hd
        exact Nat.dvd_of_mod_eq_zero hz
      rw [Nat.mul_div_cancel' hdvd, hmul]

/-- C1 witness: the divisibility hypothesis holds and the theorem applies
at `f0 = 4`, `tconv_dims = [8, 32]` (strides 2 and 4). -/
theorem strides_exact_witness :
    chainDivB 4 [8, 32] = true ∧
    ∃ ss, computeStrides 4 [8, 32] = some ss ∧
      List.zipWith (· * ·) (4 :: [8, 32]) ss = [8, 32] :=
  ⟨by decide, strides_exact 4 [8, 32] (by decide)⟩

/-- C3: `TrainValueHook`'s step counter starts at -1, each `run` increments
it by exactly 1, and the action executes on a `run` invocation iff the
post-increment step is a multiple of `verb_step`; on the ticks (0-indexed
invocations) this means the action fires on tick `n` iff `verb_step` divides
`n`, and with `verb_step = 5` the firing ticks among 0..10 are exactly
0, 5, 10. -/
theorem trainHook_fires (verb_step : Int) (n : Nat) (s : HookState) :
    HookState.init.step = -1 ∧
    (trainRun verb_step s).1.step = s.step + 1 ∧
    ((trainRun verb_step s).2 = true ↔ (s.step + 1) % verb_step = 0) ∧
    (trainFiredOnTick verb_step n = true ↔ verb_step ∣ (n : Int)) ∧
    (List.range 11).filter (trainFiredOnTick 5) = [0, 5, 10] := by
  refine ⟨rfl, rfl, ?_, ?_, by decide⟩
  · simp [trainRun]
  · unfold trainFiredOnTick trainRun
    rw [trainIter_step verb_step n]
    simp only [sub_add_cancel, beq_iff_eq]
    exact ⟨fun h => Int.dvd_of_emod_eq_zero h, fun h => Int.emod_eq_zero_of_dvd h⟩

/-- C4: `ValidationHook`'s action executes on a `run` invocation iff the
post-increment step is a nonzero multiple of `valid_step`; on the ticks
this means it fires on tick `n` iff `valid_step` divides `n` and `n ≠ 0`,
so it never fires on tick 0, and with `valid_step = 10` the firing ticks
among 0..30 are exactly 10, 20, 30. -/
theorem validationHook_fires (valid_step : Int) (n : Nat) (s : HookState) :
    (validRun valid_step s).1.step = s.step + 1 ∧
    ((validRun valid_step s).2 = true ↔
      ((s.step + 1) % valid_step = 0 ∧ s.step + 1 ≠ 0)) ∧
    (validFiredOnTick valid_step n = true ↔
      (valid_step ∣ (n : Int) ∧ (n : Int) ≠ 0)) ∧
    validFiredOnTick 10 0 = false ∧
    (List.range 31).filter (validFiredOnTick 10) = [10, 20, 30] := by
  refine ⟨rfl, ?_, ?_, by decide, by decide⟩
  · simp [validRun]
  · unfold validFiredOnTick validRun
    rw [validIter_step valid_step n]
    simp only [sub_add_cancel, Bool.and_eq_true, beq_iff_eq, Bool.not_eq_true',
      beq_eq_false_iff_ne, ne_eq]
    constructor
    · rintro ⟨h1, h2⟩
      exact ⟨Int.dvd_of_emod_eq_zero h1, h2⟩
    · rintro ⟨h1, h2⟩
      exact ⟨Int.emod_eq_zero_of_dvd h1, h2⟩

/-- C9: the re-evaluation branch of `main` in src/evaluate.py is always
taken: its condition reads the module-level constant `FORCE_RUN` (fixed to
`True`), not the parsed `force_run` flag, so for every flag value and every
file-system state the branch condition is true. -/
theorem eval_branch_always_taken :
    ∀ (force_run_flag saveFileExists : Bool),
      evalBranchTaken force_run_flag saveFileExists = true := by
  decide

theorem foldl_shape_fst (init : Nat × Nat) (l : List Nat) :
    (l.foldl (fun s f => (s.1, f)) init).1 = init.1 := by
  induction l generalizing init with
  | nil => rfl
  | cons a t ih => simpa using ih (init.1, a)

/-- C2: for every valid architecture spec (nonempty `fc_filters`, equal
stage-list lengths, divisibility chain), the forward pass of `my_model_fn`
on an input of shape `[batch, input_size]` yields shape
`[batch, tconv_dims[-1]]` when upsampling stages exist, and
`[batch, fc_filters[-1]]` when `tconv_dims` is empty. -/
theorem my_model_fn_output_shape (batch input_size f0 : Nat)
    (fc' td tf : List Nat) (hlen : td.length = tf.length)
    (hdiv : chainDivB f0 td = true) :
    my_model_fn_shape (batch, input_size) batch (fc' ++ [f0]) td tf =
      some (batch, td.getLastD f0) := by
  have hle : td.length ≤ tf.length := le_of_eq hlen
  have hmap : (td.zip tf).map Prod.fst = td := List.map_fst_zip td tf hle
  have hfold : (fc' ++ [f0]).foldl (fun s f => (s.1, f)) (batch, input_size)
      = (batch, f0) := by
    rw [List.foldl_append]
    have h1 := foldl_shape_fst (batch, input_size) fc'
    simp only [List.foldl]
    exact Prod.ext h1 rfl
  simp only [my_model_fn_shape, hfold, List.getLast?_concat]
  rw [stageLoop_spec batch (td.zip tf) (batch, f0, 1) f0 1
    (by rw [hmap]; exact hdiv)]
  rw [zip_getLast?_eq td tf hlen]
  cases htd : td.getLast? with
  | none =>
    have h0 : td = [] := List.getLast?_eq_none_iff.mp htd
    subst h0
    rfl
  | some u =>
    have hne : td ≠ [] := by
      intro h; subst h; simp at htd
    have htfne : tf ≠ [] := by
      intro h
      subst h
      simp at hlen
      exact hne hlen
    cases htf : tf.getLast? with
    | none => exact absurd (List.getLast?_eq_none_iff.mp htf) htfne
    | some y =>
      simp only [List.getLastD_eq_getLast?, htd, Option.getD_some]

/-- C2 witness: the theorem applies both to `fc_filters = [4]` with no
upsampling stages (output shape `[20, 4]`) and to `fc_filters = [4]`,
`tconv_dims = [8]`, `tconv_filters = [2]` (output shape `[20, 8]`). -/
theorem my_model_fn_output_shape_witness :
    (([] : List Nat).length = ([] : List Nat).length ∧ chainDivB 4 [] = true ∧
      my_model_fn_shape (20, 2) 20 [4] [] [] = some (20, 4)) ∧
    (([8] : List Nat).length = ([2] : List Nat).length ∧
      chainDivB 4 [8] = true ∧
      my_model_fn_shape (20, 2) 20 [4] [8] [2] = some (20, 8)) :=
  ⟨⟨rfl, by decide, my_model_fn_output_shape 20 2 4 [] [] [] rfl (by decide)⟩,
   ⟨rfl, by decide, my_model_fn_output_shape 20 2 4 [] [8] [2] rfl (by decide)⟩⟩

/-! ## Validation pass of ValidationHook.run (src/network_helper.py)

When the hook fires it runs `sess.run(self.valid_init_op)` and then
    loss_val = []
    truth, pred = None, None
    try:
        while True:
            loss, truth, pred = sess.run([self.loss, self.truth, self.pred])
            loss_val.append(loss)
    except tf.errors.OutOfRangeError:
        pass
    loss_mean = np.mean(loss_val)
The validation stream is a finite sequence of batches; reaching its end
raises `OutOfRangeError`, caught by the `except`, after which the hook
continues normally. -/

/-- One batch of the validation stream: the values `sess.run` returns for
`[self.loss, self.truth, self.pred]`. -/
structure Batch where
  loss : ℚ
  truth : List ℚ
  pred : List ℚ
deriving DecidableEq, Repr

/-- The `try/while` drain loop of `ValidationHook.run`: consume batches
until the stream is exhausted (end of list = the `OutOfRangeError` caught
by the `except`, a normal return), appending each loss to `loss_val` and
overwriting `truth`/`pred` with the current batch's arrays. -/
def drainLoop : List ℚ → Option (List ℚ) → Option (List ℚ) → List Batch →
    List ℚ × Option (List ℚ) × Option (List ℚ)
  | acc, t, p, [] => (acc, t, p)
  | acc, _, _, b :: rest =>
    drainLoop (acc ++ [b.loss]) (some b.truth) (some b.pred) rest

/-- `np.mean` of a list; the mean of an empty list is NaN in numpy,
modelled as `none`. -/
def npMean (l : List ℚ) : Option ℚ :=
  if l.isEmpty then none else some (l.sum / l.length)

/-- The firing body of `ValidationHook.run`: drain the stream starting
from `loss_val = []`, `truth, pred = None, None`, then report
`np.mean(loss_val)` and the retained truth/pred arrays. -/
def validationPass (stream : List Batch) :
    Option ℚ × Option (List ℚ) × Option (List ℚ) :=
  let r := drainLoop [] none none stream
  (npMean r.1, r.2.1, r.2.2)

theorem drainLoop_spec :
    ∀ (stream : List Batch) (acc : List ℚ) (t p : Option (List ℚ)),
      drainLoop acc t p stream =
        (acc ++ stream.map Batch.loss,
         match stream.getLast? with
         | none => (t, p)
         | some b => (some b.truth, some b.pred)) := by
  intro stream
  induction stream with
  | nil => intro acc t p; simp [drainLoop]
  | cons b rest ih =>
    intro acc t p
    simp only [drainLoop, ih, List.map_cons, List.append_assoc,
      List.singleton_append]
    cases hr : rest.getLast? with
    | none =>
      have h0 : rest = [] := List.getLast?_eq_none_iff.mp hr
      subst h0
      rfl
    | some q =>
      have hne : rest ≠ [] := by
        intro h; subst h; simp at hr
      rw [getLast?_cons_ne_nil b hne, hr]

/-- C5: when `ValidationHook` fires on a nonempty validation stream, the
drain loop consumes every batch and returns normally (stream exhaustion is
caught locally, not propagated), the reported loss is the arithmetic mean
of all per-batch losses, and the retained truth/prediction arrays are
exactly those of the final batch consumed. -/
theorem validation_pass_drains (stream : List Batch) (h : stream ≠ []) :
    (drainLoop [] none none stream).1 = stream.map Batch.loss ∧
    validationPass stream =
      (some ((stream.map Batch.loss).sum / (stream.length : ℚ)),
       some (stream.getLast h).truth, some (stream.getLast h).pred) := by
  have hd := drainLoop_spec stream [] none none
  constructor
  · rw [hd]; simp
  · unfold validationPass
    rw [hd]
    have hlast : stream.getLast? = some (stream.getLast h) :=
      List.getLast?_eq_getLast_of_ne_nil h
    rw [hlast]
    have hne' : stream.map Batch.loss ≠ [] := by
      intro hmap
      exact h (List.map_eq_nil_iff.mp hmap)
    simp only [List.nil_append, npMean, List.isEmpty_eq_true]
    rw [if_neg hne']
    simp [List.length_map]

/-- C5 witness: a two-batch stream; the mean of losses 1 and 3 is 2, and
the retained arrays are those of the second batch. -/
theorem validation_pass_drains_witness :
    (([⟨1, [5], [6]⟩, ⟨3, [7], [8]⟩] : List Batch) ≠ []) ∧
    validationPass [⟨1, [5], [6]⟩, ⟨3, [7], [8]⟩] =
      (some 2, some [7], some [8]) := by
  refine ⟨by simp, ?_⟩
  have h := (validation_pass_drains [⟨1, [5], [6]⟩, ⟨3, [7], [8]⟩]
    (by simp)).2
  rw [h]
  norm_num [List.getLast]

/-- C10: if the validation stream is exhausted before yielding any batch,
the drain loop ends with an empty loss list, the reported mean is not a
well-defined number (`np.mean` of an empty list, modelled `none`), and the
retained truth and prediction values remain the `None` placeholders. -/
theorem validation_pass_empty_stream :
    drainLoop [] none none [] = ([], none, none) ∧
    validationPass [] = (none, none, none) ∧
    npMean [] = none :=
  ⟨rfl, rfl, rfl⟩

/-! ## Length-mismatched stage lists (C6) -/

/-- C6 counterexample: with `fc_filters = [4]`, `tconv_dims = [8]`,
`tconv_filters = [2, 3]` the stage lists have different lengths, yet
`my_model_fn` raises no error and builds a network: the forward pass
succeeds with output shape `[20, 8]` (the zip silently drops the extra
filter entry). -/
theorem length_mismatch_still_builds :
    my_model_fn_shape (20, 2) 20 [4] [8] [2, 3] = some (20, 8) ∧
    ([8] : List Nat).length ≠ ([2, 3] : List Nat).length := by
  decide

theorem getLast?_map_fst {α β : Type} :
    ∀ (l : List (α × β)), (l.map Prod.fst).getLast? =
      l.getLast?.map Prod.fst := by
  intro l
  induction l with
  | nil => rfl
  | cons a rest ih =>
    cases hr : rest with
    | nil => rfl
    | cons b bs =>
      have hne : rest ≠ [] := by rw [hr]; simp
      have hmne : rest.map Prod.fst ≠ [] := by
        rw [hr]; simp
      rw [← hr, List.map_cons, getLast?_cons_ne_nil a.1 hmne,
        getLast?_cons_ne_nil a hne, ih]

/-- C6 amended: network construction does not check the lengths of
`tconv_dims` and `tconv_filters` against each other; the stage loop runs
over `zip(tconv_dims, tconv_filters)`, silently truncating to
`min` of the two lengths, and (given the divisibility chain over the
zipped widths) builds a network whose output width is the last zipped
target width (or `fc_filters[-1]` if the zip is empty). -/
theorem my_model_fn_silently_truncates (batch input_size f0 : Nat)
    (fc' td tf : List Nat)
    (hdiv : chainDivB f0 ((td.zip tf).map Prod.fst) = true) :
    my_model_fn_shape (batch, input_size) batch (fc' ++ [f0]) td tf =
      some (batch, ((td.zip tf).map Prod.fst).getLastD f0) ∧
    (td.zip tf).length = min td.length tf.length := by
  refine ⟨?_, List.length_zip td tf⟩
  have hfold : (fc' ++ [f0]).foldl (fun s f => (s.1, f)) (batch, input_size)
      = (batch, f0) := by
    rw [List.foldl_append]
    have h1 := foldl_shape_fst (batch, input_size) fc'
    simp only [List.foldl]
    exact Prod.ext h1 rfl
  simp only [my_model_fn_shape, hfold, List.getLast?_concat]
  rw [stageLoop_spec batch (td.zip tf) (batch, f0, 1) f0 1 hdiv]
  rw [List.getLastD_eq_getLast?, getLast?_map_fst]
  cases hz : (td.zip tf).getLast? with
  | none => rfl
  | some q => rfl

/-- C6 amended witness: the mismatched spec of the counterexample
satisfies the zipped divisibility chain, and the theorem applies: one
stage is built (the minimum of the lengths 1 and 2). -/
theorem my_model_fn_silently_truncates_witness :
    chainDivB 4 ((([8] : List Nat).zip ([2, 3] : List Nat)).map Prod.fst)
      = true ∧
    my_model_fn_shape (20, 2) 20 ([] ++ [4]) [8] [2, 3] =
      some (20, ((([8] : List Nat).zip ([2, 3] : List Nat)).map
        Prod.fst).getLastD 4) ∧
    (([8] : List Nat).zip ([2, 3] : List Nat)).length =
      min ([8] : List Nat).length ([2, 3] : List Nat).length :=
  ⟨by decide, (my_model_fn_silently_truncates 20 2 4 [] [8] [2, 3]
      (by decide)).1,
    (my_model_fn_silently_truncates 20 2 4 [] [8] [2, 3] (by decide)).2⟩

/-! ## compare_truth_pred (src/evaluate.py)

    pred = np.loadtxt(pred_file, delimiter=' ')
    truth = np.loadtxt(truth_file, delimiter=' ')
    mae = np.mean(np.abs(pred-truth), axis=1)
    mse = np.mean(np.square(pred-truth), axis=1)
The loaded files are 2-D arrays of equal shape (same row count and row
width); embedded as lists of equal-length rational rows. -/

/-- One entry of `np.mean(np.abs(pred-truth), axis=1)`: mean absolute
difference over one row. -/
def row_mae (p t : List ℚ) : ℚ :=
  (List.zipWith (fun a b => |a - b|) p t).sum / p.length

/-- One entry of `np.mean(np.square(pred-truth), axis=1)`: mean squared
difference over one row. -/
def row_mse (p t : List ℚ) : ℚ :=
  (List.zipWith (fun a b => (a - b) ^ 2) p t).sum / p.length

/-- `compare_truth_pred` on already-loaded arrays: the per-row mae and mse
vectors. -/
def compare_truth_pred (pred truth : List (List ℚ)) : List ℚ × List ℚ :=
  (List.zipWith row_mae pred truth, List.zipWith row_mse pred truth)

theorem row_mae_self (r : List ℚ) : row_mae r r = 0 := by
  unfold row_mae
  have h : List.zipWith (fun a b => |a - b|) r r = r.map (fun _ => (0 : ℚ)) := by
    induction r with
    | nil => rfl
    | cons a t ih => simp [List.zipWith, ih]
  rw [h]
  simp

theorem row_mse_self (r : List ℚ) : row_mse r r = 0 := by
  unfold row_mse
  have h : List.zipWith (fun a b => (a - b) ^ 2) r r
      = r.map (fun _ => (0 : ℚ)) := by
    induction r with
    | nil => rfl
    | cons a t ih => simp [List.zipWith, ih]
  rw [h]
  simp

theorem sum_map_const_rat (r : List ℚ) (k : ℚ) :
    (r.map (fun _ => k)).sum = r.length * k := by
  induction r with
  | nil => simp
  | cons a t ih =>
    simp [ih]
    ring

theorem zipWith_absdiff_offset (c : ℚ) :
    ∀ r : List ℚ,
      List.zipWith (fun a b => |a - b|) (r.map (fun x => x + c)) r
        = r.map (fun _ => |c|) := by
  intro r
  induction r with
  | nil => rfl
  | cons a t ih =>
    simp only [List.map_cons, List.zipWith]
    rw [ih, add_sub_cancel_left]

theorem zipWith_sqdiff_offset (c : ℚ) :
    ∀ r : List ℚ,
      List.zipWith (fun a b => (a - b) ^ 2) (r.map (fun x => x + c)) r
        = r.map (fun _ => c ^ 2) := by
  intro r
  induction r with
  | nil => rfl
  | cons a t ih =>
    simp only [List.map_cons, List.zipWith]
    rw [ih, add_sub_cancel_left]

theorem row_mae_offset (c : ℚ) (hc : 0 ≤ c) (r : List ℚ) (hr : r ≠ []) :
    row_mae (r.map (fun x => x + c)) r = c := by
  unfold row_mae
  rw [zipWith_absdiff_offset, abs_of_nonneg hc, sum_map_const_rat,
    List.length_map]
  have hlen : ((r.length : ℚ)) ≠ 0 := by
    have := List.length_pos.mpr hr
    exact_mod_cast Nat.pos_iff_ne_zero.mp this
  field_simp

theorem row_mse_offset (c : ℚ) (r : List ℚ) (hr : r ≠ []) :
    row_mse (r.map (fun x => x + c)) r = c ^ 2 := by
  unfold row_mse
  rw [zipWith_sqdiff_offset, sum_map_const_rat, List.length_map]
  have hlen : ((r.length : ℚ)) ≠ 0 := by
    have := List.length_pos.mpr hr
    exact_mod_cast Nat.pos_iff_ne_zero.mp this
  field_simp

/-- C8: `compare_truth_pred` on two identical arrays returns all-zero mae
and mse vectors; on arrays whose entries differ by a constant `c ≥ 0` in
every position it returns `mae = c` and `mse = c ^ 2` for every row (in
particular when the row width is 1), the mse of each row being the mean of
the squared per-row differences. -/
theorem compare_truth_pred_spec (truth : List (List ℚ)) (c : ℚ)
    (hc : 0 ≤ c) (hrows : ∀ r ∈ truth, r ≠ []) :
    compare_truth_pred truth truth
      = (truth.map (fun _ => 0), truth.map (fun _ => 0)) ∧
    compare_truth_pred (truth.map (fun r => r.map (fun x => x + c))) truth
      = (truth.map (fun _ => c), truth.map (fun _ => c ^ 2)) := by
  have h1 : ∀ l : List (List ℚ),
      List.zipWith row_mae l l = l.map (fun _ => (0 : ℚ)) := by
    intro l
    induction l with
    | nil => rfl
    | cons r rest ih => simp [List.zipWith, row_mae_self, ih]
  have h2 : ∀ l : List (List ℚ),
      List.zipWith row_mse l l = l.map (fun _ => (0 : ℚ)) := by
    intro l
    induction l with
    | nil => rfl
    | cons r rest ih => simp [List.zipWith, row_mse_self, ih]
  have h3 : ∀ l : List (List ℚ), (∀ r ∈ l, r ≠ []) →
      List.zipWith row_mae (l.map (fun r => r.map (fun x => x + c))) l
        = l.map (fun _ => c) := by
    intro l
    induction l with
    | nil => intro _; rfl
    | cons r rest ih =>
      intro hl
      have hr : r ≠ [] := hl r (List.mem_cons_self r rest)
      simp only [List.map_cons, List.zipWith, row_mae_offset c hc r hr]
      rw [ih (fun q hq => hl q (List.mem_cons_of_mem r hq))]
  have h4 : ∀ l : List (List ℚ), (∀ r ∈ l, r ≠ []) →
      List.zipWith row_mse (l.map (fun r => r.map (fun x => x + c))) l
        = l.map (fun _ => c ^ 2) := by
    intro l
    induction l with
    | nil => intro _; rfl
    | cons r rest ih =>
      intro hl
      have hr : r ≠ [] := hl r (List.mem_cons_self r rest)
      simp only [List.map_cons, List.zipWith, row_mse_offset c r hr]
      rw [ih (fun q hq => hl q (List.mem_cons_of_mem r hq))]
  unfold compare_truth_pred
  rw [h1 truth, h2 truth, h3 truth hrows, h4 truth hrows]
  exact ⟨rfl, rfl⟩

/-- C8 witness: the theorem applies with truth rows `[1]` and `[2, 5]` and
offset `c = 3`: identical files give zero vectors, the offset files give
mae `[3, 3]` and mse `[9, 9]`. -/
theorem compare_truth_pred_spec_witness :
    ((0 : ℚ) ≤ 3 ∧ (∀ r ∈ ([[1], [2, 5]] : List (List ℚ)), r ≠ [])) ∧
    (compare_truth_pred [[1], [2, 5]] [[1], [2, 5]] = ([0, 0], [0, 0]) ∧
     compare_truth_pred
       (([[1], [2, 5]] : List (List ℚ)).map (fun r => r.map (fun x => x + 3)))
       [[1], [2, 5]] = ([3, 3], [9, 9])) := by
  refine ⟨⟨by norm_num, by decide⟩, ?_⟩
  have h := compare_truth_pred_spec [[1], [2, 5]] 3 (by norm_num) (by decide)
  refine ⟨?_, ?_⟩
  · rw [h.1]; rfl
  · rw [h.2]; norm_num

/-! ## Metadata parser get_parameters (src/network_helper.py) -/

/-- The inner helper of `get_parameters`:
    for char in [',', '(', ')']:
        s = s.replace(char, ' ')
Each replaced pattern is a single character, so the three sequential
replaces act pointwise on the characters. -/
def replace_str (s : List Char) : List Char :=
  s.map (fun c => if c = ',' ∨ c = '(' ∨ c = ')' then ' ' else c)

/-- Python `str.split()` with no separator, as used in `get_parameters`:
split on runs of whitespace, discarding empty tokens. -/
def splitWs : List Char → List (List Char)
  | [] => []
  | c :: cs =>
    if c.isWhitespace then splitWs cs
    else (c :: cs.takeWhile (fun d => !d.isWhitespace)) ::
      splitWs (cs.dropWhile (fun d => !d.isWhitespace))
termination_by l => l.length
decreasing_by
  · simp_wf
  · simp_wf
    have h : ∀ t : List Char,
        (t.dropWhile (fun d => !d.isWhitespace)).length ≤ t.length := by
      intro t
      induction t with
      | nil => simp
      | cons a r ih =>
        simp only [List.dropWhile]
        cases (!a.isWhitespace) with
        | false => simp
        | true =>
          calc (r.dropWhile (fun d => !d.isWhitespace)).length
              ≤ r.length := ih
            _ ≤ (a :: r).length := by simp
    exact Nat.lt_succ_of_le (h cs)

/-- Python `str.isdigit()` on the tokens that occur here (ASCII): true iff
the token is nonempty and all characters are decimal digits. -/
def pyIsDigit (t : List Char) : Bool := !t.isEmpty && t.all Char.isDigit

/-- Python `int()` on a digit token. -/
def strToNat (t : List Char) : Nat :=
  t.foldl (fun a c => 10 * a + (c.toNat - 48)) 0

/-- One attribute line of `get_parameters`:
    line = replace_str(line)
    tuple([int(s) for s in line.split() if s.isdigit()]) -/
def parse_line (line : List Char) : List Nat :=
  ((splitWs (replace_str line)).filter pyIsDigit).map strToNat

/-- `get_parameters` over the metadata file's lines: dispatch on the
literal line heads (`line[:10]`, `line[:13]`), later matching lines
overwriting earlier ones; an attribute with no matching line stays `none`
(Python: NameError at the return). -/
def get_parameters (lines : List (List Char)) :
    Option (List Nat) × Option (List Nat) × Option (List Nat) :=
  lines.foldl (fun acc line =>
    if line.take 10 = "fc_filters".toList then
      (some (parse_line line), acc.2.1, acc.2.2)
    else if line.take 10 = "tconv_dims".toList then
      (acc.1, some (parse_line line), acc.2.2)
    else if line.take 13 = "tconv_filters".toList then
      (acc.1, acc.2.1, some (parse_line line))
    else acc) (none, none, none)

/-- Modelled from the spec: the decimal digit characters used by the
metadata writer (the training script that produces model_meta.txt is not
under src/). -/
def digitChar : Nat → Char
  | 0 => '0'
  | 1 => '1'
  | 2 => '2'
  | 3 => '3'
  | 4 => '4'
  | 5 => '5'
  | 6 => '6'
  | 7 => '7'
  | 8 => '8'
  | _ => '9'

/-- Modelled from the spec: the decimal numeral of a natural number as
written into the metadata file. -/
def showNat (n : Nat) : List Char :=
  if n < 10 then [digitChar n]
  else showNat (n / 10) ++ [digitChar (n % 10)]
termination_by n
decreasing_by
  simp_wf
  omega

/-- Modelled from the spec: the comma-space separator of the parenthesized
integer list. -/
def joinCommaSp : List (List Char) → List Char
  | [] => []
  | [x] => x
  | x :: y :: r => x ++ ',' :: ' ' :: joinCommaSp (y :: r)

/-- Modelled from the spec: one line of the metadata file, the literal
attribute name followed by a parenthesized comma-separated integer list,
e.g. "fc_filters (4, 8, 16)" with its trailing newline. -/
def metaLine (name : List Char) (xs : List Nat) : List Char :=
  name ++ ' ' :: '(' :: (joinCommaSp (xs.map showNat) ++ [')', '\n'])

theorem digitChar_isDigit (d : Nat) : (digitChar d).isDigit = true := by
  unfold digitChar
  split <;> decide

theorem digitChar_toNat (d : Nat) (h : d < 10) :
    (digitChar d).toNat - 48 = d := by
  interval_cases d <;> decide

theorem isDigit_ne {c x : Char} (h : c.isDigit = true)
    (hx : x.isDigit = false) : c ≠ x := by
  intro he
  rw [he, hx] at h
  exact Bool.false_ne_true h

theorem isDigit_not_ws {c : Char} (h : c.isDigit = true) :
    c.isWhitespace = false := by
  have h1 : c ≠ ' ' := isDigit_ne h (by decide)
  have h2 : c ≠ '\t' := isDigit_ne h (by decide)
  have h3 : c ≠ '\r' := isDigit_ne h (by decide)
  have h4 : c ≠ '\n' := isDigit_ne h (by decide)
  simp [Char.isWhitespace, h1, h2, h3, h4]

theorem showNat_ne_nil (n : Nat) : showNat n ≠ [] := by
  unfold showNat
  split <;> simp

theorem showNat_all_digit (n : Nat) :
    (showNat n).all Char.isDigit = true := by
  induction n using Nat.strong_induction_on with
  | _ n ih =>
    unfold showNat
    split
    · simp [digitChar_isDigit]
    · next h =>
      have hlt : n / 10 < n := Nat.div_lt_self (by omega) (by omega)
      rw [List.all_append]
      simp [ih (n / 10) hlt, digitChar_isDigit]

theorem strToNat_append_digit (a : List Char) (c : Char) :
    strToNat (a ++ [c]) = 10 * strToNat a + (c.toNat - 48) := by
  unfold strToNat
  rw [List.foldl_append]
  rfl

theorem strToNat_showNat (n : Nat) : strToNat (showNat n) = n := by
  induction n using Nat.strong_induction_on with
  | _ n ih =>
    unfold showNat
    split
    · next h =>
      show strToNat [digitChar n] = n
      unfold strToNat
      simp only [List.foldl]
      rw [Nat.mul_zero, Nat.zero_add]
      exact digitChar_toNat n h
    · next h =>
      have hlt : n / 10 < n := Nat.div_lt_self (by omega) (by omega)
      rw [strToNat_append_digit, ih (n / 10) hlt,
        digitChar_toNat (n % 10) (Nat.mod_lt n (by omega))]
      omega

theorem splitWs_ws_cons (c : Char) (h : c.isWhitespace = true)
    (l : List Char) : splitWs (c :: l) = splitWs l := by
  conv_lhs => rw [splitWs]
  simp [h]

theorem splitWs_cons_not_ws (c : Char) (hc : c.isWhitespace = false)
    (cs : List Char) :
    splitWs (c :: cs) = (c :: cs.takeWhile (fun d => !d.isWhitespace)) ::
      splitWs (cs.dropWhile (fun d => !d.isWhitespace)) := by
  conv_lhs => rw [splitWs]
  simp [hc]

theorem splitWs_nil : splitWs [] = [] := by
  rw [splitWs]

theorem takeWhile_token (t rest : List Char)
    (h : ∀ c ∈ t, c.isWhitespace = false) :
    ((t ++ ' ' :: rest).takeWhile (fun d => !d.isWhitespace)) = t := by
  induction t with
  | nil => simp [List.takeWhile]
  | cons c ts ih =>
    have hc := h c (List.mem_cons_self c ts)
    rw [List.cons_append, List.takeWhile_cons]
    simp only [hc, Bool.not_false, if_true]
    rw [ih (fun d hd => h d (List.mem_cons_of_mem c hd))]

theorem dropWhile_token (t rest : List Char)
    (h : ∀ c ∈ t, c.isWhitespace = false) :
    ((t ++ ' ' :: rest).dropWhile (fun d => !d.isWhitespace))
      = ' ' :: rest := by
  induction t with
  | nil => simp [List.dropWhile]
  | cons c ts ih =>
    have hc := h c (List.mem_cons_self c ts)
    rw [List.cons_append, List.dropWhile_cons]
    simp only [hc, Bool.not_false, if_true]
    exact ih (fun d hd => h d (List.mem_cons_of_mem c hd))

theorem splitWs_token (t rest : List Char) (ht : t ≠ [])
    (h : ∀ c ∈ t, c.isWhitespace = false) :
    splitWs (t ++ ' ' :: rest) = t :: splitWs rest := by
  cases t with
  | nil => exact absurd rfl ht
  | cons c ts =>
    have hc := h c (List.mem_cons_self c ts)
    have hts : ∀ d ∈ ts, d.isWhitespace = false :=
      fun d hd => h d (List.mem_cons_of_mem c hd)
    rw [List.cons_append, splitWs_cons_not_ws c hc,
      takeWhile_token ts rest hts, dropWhile_token ts rest hts,
      splitWs_ws_cons ' ' (by decide) rest]

theorem showNat_not_ws (n : Nat) :
    ∀ c ∈ showNat n, c.isWhitespace = false := by
  intro c hc
  have hall := showNat_all_digit n
  rw [List.all_eq_true] at hall
  exact isDigit_not_ws (hall c hc)

theorem replace_str_append (a b : List Char) :
    replace_str (a ++ b) = replace_str a ++ replace_str b :=
  List.map_append _ a b

theorem replace_str_noop (t : List Char)
    (h : ∀ c ∈ t, c ≠ ',' ∧ c ≠ '(' ∧ c ≠ ')') : replace_str t = t := by
  induction t with
  | nil => rfl
  | cons c r ih =>
    obtain ⟨f1, f2, f3⟩ := h c (List.mem_cons_self c r)
    simp only [replace_str, List.map_cons]
    rw [if_neg (by simp [f1, f2, f3])]
    have := ih (fun d hd => h d (List.mem_cons_of_mem c hd))
    simp only [replace_str] at this
    rw [this]

theorem replace_str_digits (t : List Char)
    (h : t.all Char.isDigit = true) : replace_str t = t := by
  rw [List.all_eq_true] at h
  refine replace_str_noop t (fun c hc => ?_)
  have hd := h c hc
  exact ⟨isDigit_ne hd (by decide), isDigit_ne hd (by decide),
    isDigit_ne hd (by decide)⟩

theorem splitWs_join (xs : List Nat) (rest : List Char) :
    splitWs (replace_str (joinCommaSp (xs.map showNat)) ++ ' ' :: rest)
      = xs.map showNat ++ splitWs rest := by
  induction xs with
  | nil =>
    simp only [List.map_nil, joinCommaSp, replace_str, List.nil_append]
    exact splitWs_ws_cons ' ' (by decide) rest
  | cons x t ih =>
    cases t with
    | nil =>
      simp only [List.map_cons, List.map_nil, joinCommaSp]
      rw [replace_str_digits _ (showNat_all_digit x),
        splitWs_token _ rest (showNat_ne_nil x) (showNat_not_ws x)]
      rfl
    | cons y r =>
      have hjoin : joinCommaSp ((x :: y :: r).map showNat)
          = showNat x ++ ',' :: ' ' :: joinCommaSp ((y :: r).map showNat) :=
        rfl
      rw [hjoin, replace_str_append,
        replace_str_digits _ (showNat_all_digit x)]
      have hsep : replace_str (',' :: ' ' ::
          joinCommaSp ((y :: r).map showNat))
          = ' ' :: ' ' :: replace_str (joinCommaSp ((y :: r).map showNat)) :=
        rfl
      rw [hsep, List.append_assoc]
      simp only [List.cons_append]
      rw [splitWs_token (showNat x) _ (showNat_ne_nil x) (showNat_not_ws x)]
      rw [splitWs_ws_cons ' ' (by decide)]
      rw [ih]
      rfl

theorem pyIsDigit_showNat (n : Nat) : pyIsDigit (showNat n) = true := by
  unfold pyIsDigit
  rw [showNat_all_digit]
  have := showNat_ne_nil n
  cases h : showNat n with
  | nil => exact absurd h this
  | cons c r => simp

theorem parse_line_metaLine (name : List Char) (xs : List Nat)
    (hnoop : ∀ c ∈ name, c ≠ ',' ∧ c ≠ '(' ∧ c ≠ ')')
    (hws : ∀ c ∈ name, c.isWhitespace = false)
    (hne : name ≠ []) (hnd : pyIsDigit name = false) :
    parse_line (metaLine name xs) = xs := by
  unfold parse_line metaLine
  rw [replace_str_append, replace_str_noop name hnoop]
  have hsep : replace_str (' ' :: '(' ::
      (joinCommaSp (xs.map showNat) ++ [')', '\n']))
      = ' ' :: ' ' ::
        (replace_str (joinCommaSp (xs.map showNat)) ++ [' ', '\n']) := by
    simp only [replace_str, List.map_cons, List.map_append]
    rfl
  rw [hsep]
  have hmid : name ++ ' ' :: ' ' ::
      (replace_str (joinCommaSp (xs.map showNat)) ++ [' ', '\n'])
      = name ++ ' ' :: (' ' ::
        (replace_str (joinCommaSp (xs.map showNat)) ++ ' ' :: ['\n'])) := by
    rfl
  rw [hmid, splitWs_token name _ hne hws, splitWs_ws_cons ' ' (by decide),
    splitWs_join xs ['\n'], splitWs_ws_cons '\n' (by decide) [],
    splitWs_nil, List.append_nil]
  simp only [List.filter, hnd]
  have hfilter : (xs.map showNat).filter pyIsDigit = xs.map showNat := by
    rw [List.filter_eq_self]
    intro a ha
    obtain ⟨n, _, hn⟩ := List.mem_map.mp ha
    rw [← hn]
    exact pyIsDigit_showNat n
  rw [hfilter, List.map_map]
  have : strToNat ∘ showNat = id := by
    funext n
    exact strToNat_showNat n
  rw [this, List.map_id]

theorem metaLine_take (name : List Char) (xs : List Nat) (n : Nat)
    (h : n ≤ name.length) : (metaLine name xs).take n = name.take n := by
  unfold metaLine
  rw [List.take_append_eq_append_take, Nat.sub_eq_zero_of_le h,
    List.take_zero, List.append_nil]

/-- C7: the metadata parser round-trips: for every three integer lists,
writing the three attribute lines `fc_filters (...)`, `tconv_dims (...)`,
`tconv_filters (...)` in the spec's format and running `get_parameters`
over them returns exactly the written integer tuples. -/
theorem get_parameters_round_trip (xs ys zs : List Nat) :
    get_parameters
      [metaLine "fc_filters".toList xs,
       metaLine "tconv_dims".toList ys,
       metaLine "tconv_filters".toList zs]
      = (some xs, some ys, some zs) := by
  have t1 : (metaLine "fc_filters".toList xs).take 10
      = "fc_filters".toList := by
    rw [metaLine_take _ _ 10 (by decide)]
    decide
  have t2fc : ¬ (metaLine "tconv_dims".toList ys).take 10
      = "fc_filters".toList := by
    rw [metaLine_take _ _ 10 (by decide)]
    decide
  have t2 : (metaLine "tconv_dims".toList ys).take 10
      = "tconv_dims".toList := by
    rw [metaLine_take _ _ 10 (by decide)]
    decide
  have t3fc : ¬ (metaLine "tconv_filters".toList zs).take 10
      = "fc_filters".toList := by
    rw [metaLine_take _ _ 10 (by decide)]
    decide
  have t3td : ¬ (metaLine "tconv_filters".toList zs).take 10
      = "tconv_dims".toList := by
    rw [metaLine_take _ _ 10 (by decide)]
    decide
  have t3 : (metaLine "tconv_filters".toList zs).take 13
      = "tconv_filters".toList := by
    rw [metaLine_take _ _ 13 (by decide)]
    decide
  unfold get_parameters
  simp only [List.foldl]
  rw [if_pos t1, if_neg t2fc, if_pos t2, if_neg t3fc, if_neg t3td,
    if_pos t3]
  rw [parse_line_metaLine "fc_filters".toList xs (by decide) (by decide)
      (by decide) (by decide),
    parse_line_metaLine "tconv_dims".toList ys (by decide) (by decide)
      (by decide) (by decide),
    parse_line_metaLine "tconv_filters".toList zs (by decide) (by decide)
      (by decide) (by decide)]

end DLM
